import Mathlib

/-!
Shallow embedding of `sht/mask_deconvolution.py` (class `MaskDeconvolution`).

Python floats are modelled by `ℝ`; numpy arrays by `List ℝ` (1-D inputs) or by
total functions `ℕ → ℝ` / `ℕ → ℕ → ℝ` that are zero outside the array's shape
(matching `np.zeros` initialisation).  A Python attribute that may not have
been assigned yet is an `Option` field: `none` means the attribute does not
exist, and reading it raises `AttributeError`.  Fallible operations return
`Except PyErr`.  The external Wigner-3j provider (`threej000.Wigner3j`, out of
scope per the interface: a pure function of three multipoles) is a function
parameter of the instance.
-/

/-- Python exceptions that the modelled code can raise. -/
inductive PyErr where
  | assertionError (msg : String)
  | attributeError (attr : String)
  | indexError
  | valueError
  | linAlgError (msg : String)
  deriving DecidableEq

/-- Instance state of the Python class `MaskDeconvolution`.  The first four
fields are set by `__init__`; the `Option` fields are attributes that only
come into existence during `__call__`. -/
structure MaskDeconvolution where
  lmax : ℕ
  W_l : List ℝ
  w3j000 : ℕ → ℕ → ℕ → ℝ
  Mll : ℕ → ℕ → ℝ
  lperBin : Option ℕ
  bins : Option (ℕ → ℕ → ℝ)
  bins_no_weight : Option (ℕ → ℕ → ℝ)
  binned_ells : Option (ℕ → ℝ)
  Mbb_inv : Option (ℕ × (ℕ → ℕ → ℝ))

/-- Method `W(self, l, debug=False)`: the window function at multipole `l`.
`self.W_l[l]` is modelled by `getD`; for the indices used by `get_M`
(`l ≤ 2*lmax`) the padded array is long enough, so the default is never hit. -/
noncomputable def MaskDeconvolution.W (self : MaskDeconvolution) (l : ℕ)
    (debug : Bool) : ℝ :=
  if debug then (if l = 0 then 4 * Real.pi else 0) else self.W_l.getD l 0

/-- The inner `for l3 in range(abs(l1-l2), l1+l2+1)` accumulation loop of
`get_M`, before the final division by `4*pi`.  `abs(l1-l2)` on natural
numbers is `max (l1-l2) (l2-l1)`. -/
noncomputable def MaskDeconvolution.getMinner (self : MaskDeconvolution)
    (debug : Bool) (l1 l2 : ℕ) : ℝ :=
  (List.range' (max (l1 - l2) (l2 - l1))
      (l1 + l2 + 1 - max (l1 - l2) (l2 - l1))).foldl
    (fun acc l3 =>
      if (l1 + l2 + l3) % 2 = 0 then
        acc + (2 * (l2 : ℝ) + 1) * (2 * (l3 : ℝ) + 1) *
          (self.w3j000 l1 l2 l3) ^ 2 * self.W l3 debug
      else acc) 0

/-- Method `get_M(self, debug=False)`: the mode-coupling matrix, an
`(lmax+1) × (lmax+1)` array (zero outside that shape, as `np.zeros`). -/
noncomputable def MaskDeconvolution.get_M (self : MaskDeconvolution)
    (debug : Bool) : ℕ → ℕ → ℝ :=
  fun l1 l2 =>
    if l1 ≤ self.lmax ∧ l2 ≤ self.lmax then
      self.getMinner debug l1 l2 / (4 * Real.pi)
    else 0

/-- `__init__(self, lmax, W_l, verbose=True)`: pads `W_l` on the right with
zeros to length at least `2*lmax+1`, stores the Wigner-3j provider, and
computes `self.Mll = self.get_M()` once.  No other attribute is created. -/
noncomputable def MaskDeconvolution.init (lmax : ℕ) (W_l : List ℝ)
    (w3j : ℕ → ℕ → ℕ → ℝ) : MaskDeconvolution :=
  let s0 : MaskDeconvolution :=
    { lmax := lmax
      W_l := W_l ++ List.replicate (max 0 (2 * lmax + 1 - W_l.length)) 0
      w3j000 := w3j
      Mll := fun _ _ => 0
      lperBin := none
      bins := none
      bins_no_weight := none
      binned_ells := none
      Mbb_inv := none }
  { s0 with Mll := s0.get_M false }

/-- Python `range(start, stop, step)` for `step ≥ 1` (for `step = 0` Python
raises `ValueError`; the caller checks that case). -/
def pyRange (start stop step : ℕ) : List ℕ :=
  (List.range ((stop - start + step - 1) / step)).map (fun k => start + k * step)

/-- The numpy slice assignment `A[r, c0:c1] = v` (the column slice clips, the
integer row index does not — the caller performs the bounds check on `r`). -/
def setRow (A : ℕ → ℕ → ℝ) (r c0 c1 : ℕ) (v : ℝ) : ℕ → ℕ → ℝ :=
  fun i j => if i = r ∧ c0 ≤ j ∧ j < c1 then v else A i j

/-- The `for i in range(0, lmax+1, lperBin)` loop of `init_binning`.  Numpy
raises `IndexError` when the integer row index `i // lperBin` is out of
bounds for an array with `nb` rows. -/
noncomputable def binLoop (lmax L nb : ℕ) :
    List ℕ → (ℕ → ℕ → ℝ) → (ℕ → ℕ → ℝ) →
      Except PyErr ((ℕ → ℕ → ℝ) × (ℕ → ℕ → ℝ))
  | [], B, Bnw => .ok (B, Bnw)
  | i :: rest, B, Bnw =>
      if i / L < nb then
        binLoop lmax L nb rest
          (setRow B (i / L) i (min (i + L) (lmax + 1)) (1 / (L : ℝ)))
          (setRow Bnw (i / L) i (min (i + L) (lmax + 1)) 1)
      else .error .indexError

/-- Method `init_binning(self)`: builds `self.bins` and `self.bins_no_weight`
of shape `((lmax+1)//lperBin, lmax+1)`, zeroes the `[0,0]` entries, and sets
`self.binned_ells = np.dot(self.bins, np.arange(lmax+1))`.  `lmax` and
`lperBin` are the attributes the method reads from `self`. -/
noncomputable def init_binning (lmax lperBin : ℕ) :
    Except PyErr ((ℕ → ℕ → ℝ) × (ℕ → ℕ → ℝ) × (ℕ → ℝ)) :=
  if lperBin = 0 then .error .valueError else
    match binLoop lmax lperBin ((lmax + 1) / lperBin)
        (pyRange 0 (lmax + 1) lperBin) (fun _ _ => 0) (fun _ _ => 0) with
    | .error e => .error e
    | .ok (B, Bnw) =>
        let B' := fun i j => if i = 0 ∧ j = 0 then 0 else B i j
        let Bnw' := fun i j => if i = 0 ∧ j = 0 then 0 else Bnw i j
        .ok (B', Bnw',
          fun b => ∑ l in Finset.range (lmax + 1), B' b l * (l : ℝ))

/-- `np.matmul` of two 2-D arrays whose inner dimension is `K`. -/
noncomputable def npMatMul (K : ℕ) (A B : ℕ → ℕ → ℝ) : ℕ → ℕ → ℝ :=
  fun i j => ∑ k in Finset.range K, A i k * B k j

/-- `np.dot` of a 2-D array with `n` columns and a vector. -/
noncomputable def npMatVec (n : ℕ) (A : ℕ → ℕ → ℝ) (v : ℕ → ℝ) : ℕ → ℝ :=
  fun i => ∑ j in Finset.range n, A i j * v j

/-- The value `np.linalg.inv` returns when it succeeds: Mathlib's
nonsingular inverse of the `Fin`-indexed reading of the `n × n` array. -/
noncomputable def npInvVal (n : ℕ) (A : ℕ → ℕ → ℝ) : ℕ → ℕ → ℝ :=
  fun i j =>
    if hi : i < n then
      if hj : j < n then
        (Matrix.of fun a b : Fin n => A a.1 b.1)⁻¹ ⟨i, hi⟩ ⟨j, hj⟩
      else 0
    else 0

/-- `np.linalg.inv` of an `n × n` array: on a singular input (zero
determinant, the exact-arithmetic counterpart of LAPACK's zero pivot) it
raises `LinAlgError("Singular matrix")`; otherwise it returns the inverse. -/
noncomputable def npInv (n : ℕ) (A : ℕ → ℕ → ℝ) :
    Except PyErr (ℕ → ℕ → ℝ) :=
  if (Matrix.of fun a b : Fin n => A a.1 b.1).det = 0 then
    .error (.linAlgError "Singular matrix")
  else .ok (npInvVal n A)

/-- Method `bin_matrix(self, M)`:
`np.matmul(np.matmul(self.bins, M), self.bins_no_weight.T)`.  The binning
operators are passed explicitly (Python reads the attributes that
`init_binning` has just stored). -/
noncomputable def bin_matrix (lmax : ℕ) (B Bnw M : ℕ → ℕ → ℝ) : ℕ → ℕ → ℝ :=
  npMatMul (lmax + 1) (npMatMul (lmax + 1) B M) (fun i j => Bnw j i)

/-- Method `bin_Cls(self, Cl)`: `np.dot(self.bins, Cl)`. -/
noncomputable def bin_Cls (lmax : ℕ) (B : ℕ → ℕ → ℝ) (Cl : ℕ → ℝ) : ℕ → ℝ :=
  fun b => ∑ l in Finset.range (lmax + 1), B b l * Cl l

/-- Method `decouple_Cls(self, Minv, Cb)`: `np.matmul(Cb, Minv)`, the row
vector `Cb` (length `n`, numpy takes the contraction length from the operand
shapes) times the matrix `Minv`. -/
noncomputable def decouple_Cls (n : ℕ) (Minv : ℕ → ℕ → ℝ) (Cb : ℕ → ℝ) :
    ℕ → ℝ :=
  fun j => ∑ i in Finset.range n, Cb i * Minv i j

/-- Method `__call__(self, C_l, lperBin)`: asserts the length contract, sets
`self.lperBin`, rebuilds the binning operators, bins the coupling matrix,
inverts it (caching `self.Mbb_inv`; `np.linalg.inv` raises `LinAlgError` if
the binned matrix is singular), bins the spectrum and mode-decouples it.
Returns the updated instance together with `(self.binned_ells, Cb_decoupled)`. -/
noncomputable def MaskDeconvolution.call (self : MaskDeconvolution)
    (C_l : List ℝ) (lperBin : ℕ) :
    Except PyErr (MaskDeconvolution × ((ℕ → ℝ) × (ℕ → ℝ))) :=
  if C_l.length = self.lmax + 1 then
    match init_binning self.lmax lperBin with
    | .error e => .error e
    | .ok (B, Bnw, E) =>
        let nb := (self.lmax + 1) / lperBin
        let Mbb := bin_matrix self.lmax B Bnw self.Mll
        match npInv nb Mbb with
        | .error e => .error e
        | .ok Minv =>
            let Cb := bin_Cls self.lmax B (fun l => C_l.getD l 0)
            let Cbd := decouple_Cls nb Minv Cb
            .ok ({ self with
                    lperBin := some lperBin
                    bins := some B
                    bins_no_weight := some Bnw
                    binned_ells := some E
                    Mbb_inv := some (nb, Minv) }, (E, Cbd))
  else
    .error (.assertionError
      "C_l must be provided up to the lmax with which the class was initialized")

/-- Method `convolve_theory_Cls(self, Clt)`.  Its first statement evaluates
`self.Mbb_inv`, which raises `AttributeError` on an instance where `__call__`
has never stored that attribute; when the attribute exists it is never `None`,
so the `assert self.Mbb_inv is not None` passes and the length assert runs
next.  Then `self.decouple_Cls(self.Mbb_inv, self.bin_Cls(np.dot(self.Mll,
Clt)))` (reading `self.bins` inside `bin_Cls`). -/
noncomputable def MaskDeconvolution.convolve_theory_Cls
    (self : MaskDeconvolution) (Clt : List ℝ) : Except PyErr (ℕ → ℝ) :=
  match self.Mbb_inv with
  | none => .error (.attributeError "Mbb_inv")
  | some (n, Minv) =>
      if Clt.length = self.lmax + 1 then
        match self.bins with
        | none => .error (.attributeError "bins")
        | some B =>
            .ok (decouple_Cls n Minv
              (bin_Cls self.lmax B
                (npMatVec (self.lmax + 1) self.Mll (fun l => Clt.getD l 0))))
      else .error (.assertionError "Clt must be provided up to the lmax")

/-- Written from the spec's words (§4.4 Decoupler), for comparison with the
translated pipeline: `Mbb = bins · M · bins_no_weight^T` with the weighted
operator on the left and the transposed unweighted operator on the right,
`Cb = bins · Cl`, and `Cb_decoupled = Cb · Mbb_inv` with `Cb` as a row vector
on the left, all phrased with Mathlib's matrix algebra over `Fin`. -/
noncomputable def decoupled_spec (lmax L : ℕ) (Mll B Bnw : ℕ → ℕ → ℝ)
    (cl : ℕ → ℝ) : ℕ → ℝ :=
  let nl := lmax + 1
  let nb := nl / L
  let Bm : Matrix (Fin nb) (Fin nl) ℝ := Matrix.of fun i j => B i.1 j.1
  let Bn : Matrix (Fin nb) (Fin nl) ℝ := Matrix.of fun i j => Bnw i.1 j.1
  let Mm : Matrix (Fin nl) (Fin nl) ℝ := Matrix.of fun i j => Mll i.1 j.1
  let Mbb : Matrix (Fin nb) (Fin nb) ℝ := Bm * Mm * Bn.transpose
  let Cb : Fin nb → ℝ := Matrix.mulVec Bm (fun l => cl l.1)
  fun j => if h : j < nb then Matrix.vecMul Cb Mbb⁻¹ ⟨j, h⟩ else 0

/-- Folding an if-guarded accumulation over a list equals the start value plus
the sum of the guarded terms. -/
lemma foldl_ite_add (f : ℕ → ℝ) (p : ℕ → Prop) [DecidablePred p] :
    ∀ (l : List ℕ) (c : ℝ),
      l.foldl (fun acc x => if p x then acc + f x else acc) c
        = c + (l.map (fun x => if p x then f x else 0)).sum := by
  intro l
  induction l with
  | nil => intro c; simp
  | cons a t ih =>
      intro c
      simp only [List.foldl_cons, List.map_cons, List.sum_cons]
      by_cases h : p a
      · rw [if_pos h, if_pos h, ih]; ring
      · rw [if_neg h, if_neg h, ih]; ring

/-- Summing a mapped `List.range'` is a `Finset.range` sum shifted by the
start index. -/
lemma map_range'_sum (g : ℕ → ℝ) :
    ∀ (n a : ℕ),
      ((List.range' a n).map g).sum = ∑ i in Finset.range n, g (a + i) := by
  intro n
  induction n with
  | zero => intro a; simp
  | succ m ih =>
      intro a
      have harg : ∀ i : ℕ, g (a + 1 + i) = g (a + (i + 1)) := by
        intro i; congr 1; omega
      rw [List.range'_succ, List.map_cons, List.sum_cons, ih (a + 1),
        Finset.sum_range_succ']
      simp only [harg, Nat.add_zero]
      exact add_comm _ _

/-- The inner loop of `get_M` as a parity-filtered sum over the triangle
window `[|l1-l2|, l1+l2]`. -/
lemma getMinner_eq_sum (self : MaskDeconvolution) (debug : Bool) (l1 l2 : ℕ) :
    self.getMinner debug l1 l2
      = ∑ l3 in (Finset.Icc (max (l1 - l2) (l2 - l1)) (l1 + l2)).filter
          (fun l3 => (l1 + l2 + l3) % 2 = 0),
          (2 * (l2 : ℝ) + 1) * (2 * (l3 : ℝ) + 1) *
            (self.w3j000 l1 l2 l3) ^ 2 * self.W l3 debug := by
  have hle : max (l1 - l2) (l2 - l1) ≤ l1 + l2 + 1 := by
    simp only [max_le_iff]; omega
  unfold MaskDeconvolution.getMinner
  rw [foldl_ite_add (fun l3 => (2 * (l2 : ℝ) + 1) * (2 * (l3 : ℝ) + 1) *
        (self.w3j000 l1 l2 l3) ^ 2 * self.W l3 debug)
      (fun l3 => (l1 + l2 + l3) % 2 = 0),
    map_range'_sum, zero_add, Finset.sum_filter, ← Nat.Ico_succ_right,
    Finset.sum_Ico_eq_sum_range]

/-- C1: for every instance (any `lmax ≥ 0`, window padded to length
`2*lmax+1` by `__init__`) and every pair `(l1, l2)` with `l1, l2 ≤ lmax`, the
matrix returned by `get_M` satisfies
`M[l1,l2] = (1/(4π)) · Σ_{l3=|l1-l2|}^{l1+l2, l1+l2+l3 even}
(2·l2+1)·(2·l3+1)·wigner(l1,l2,l3)²·W(l3)`; the odd-parity terms are exactly
the ones removed by the filter, so they contribute nothing. -/
theorem C1_getM_formula (self : MaskDeconvolution) (l1 l2 : ℕ)
    (h1 : l1 ≤ self.lmax) (h2 : l2 ≤ self.lmax) :
    self.get_M false l1 l2
      = (1 / (4 * Real.pi)) *
          ∑ l3 in (Finset.Icc (max (l1 - l2) (l2 - l1)) (l1 + l2)).filter
            (fun l3 => (l1 + l2 + l3) % 2 = 0),
            (2 * (l2 : ℝ) + 1) * (2 * (l3 : ℝ) + 1) *
              (self.w3j000 l1 l2 l3) ^ 2 * self.W l3 false := by
  unfold MaskDeconvolution.get_M
  rw [if_pos ⟨h1, h2⟩, getMinner_eq_sum, div_eq_mul_inv, ← one_div, mul_comm]

/-- A concrete instance used to witness C1. -/
noncomputable def witnessS1 : MaskDeconvolution :=
  MaskDeconvolution.init 1 [2] (fun _ _ _ => 1)

/-- Witness for C1 at `lmax = 1`, `l1 = l2 = 1`. -/
theorem C1_getM_formula_witness :
    (1 ≤ witnessS1.lmax ∧ 1 ≤ witnessS1.lmax) ∧
      witnessS1.get_M false 1 1
        = (1 / (4 * Real.pi)) *
            ∑ l3 in (Finset.Icc (max (1 - 1) (1 - 1) : ℕ) (1 + 1 : ℕ)).filter
              (fun l3 => (1 + 1 + l3) % 2 = 0),
              (2 * ((1 : ℕ) : ℝ) + 1) * (2 * (l3 : ℝ) + 1) *
                (witnessS1.w3j000 1 1 l3) ^ 2 * witnessS1.W l3 false :=
  ⟨⟨le_refl 1, le_refl 1⟩,
    C1_getM_formula witnessS1 1 1 (le_refl 1) (le_refl 1)⟩

/-- A concrete instance refuting the symmetry claim C3: `lmax = 1`, window
`W = [0, 1]`, and a Wigner-3j provider that is constantly `1` (the 3j values
are squared, so any nonzero stand-in exposes the asymmetric `(2*l2+1)`
prefactor). -/
noncomputable def asymS3 : MaskDeconvolution :=
  MaskDeconvolution.init 1 [0, 1] (fun _ _ _ => 1)

/-- Helper: the `(0,1)` entry of the counterexample instance's matrix. -/
lemma asymS3_entry01 : asymS3.Mll 0 1 = 9 / (4 * Real.pi) := by
  have h : asymS3.Mll 0 1 = asymS3.getMinner false 0 1 / (4 * Real.pi) := by
    simp [asymS3, MaskDeconvolution.init, MaskDeconvolution.get_M,
      MaskDeconvolution.getMinner, MaskDeconvolution.W]
  rw [h, getMinner_eq_sum]
  norm_num [Finset.filter_singleton, asymS3, MaskDeconvolution.init,
    MaskDeconvolution.W]

/-- Helper: the `(1,0)` entry of the counterexample instance's matrix. -/
lemma asymS3_entry10 : asymS3.Mll 1 0 = 3 / (4 * Real.pi) := by
  have h : asymS3.Mll 1 0 = asymS3.getMinner false 1 0 / (4 * Real.pi) := by
    simp [asymS3, MaskDeconvolution.init, MaskDeconvolution.get_M,
      MaskDeconvolution.getMinner, MaskDeconvolution.W]
  rw [h, getMinner_eq_sum]
  norm_num [Finset.filter_singleton, asymS3, MaskDeconvolution.init,
    MaskDeconvolution.W]

/-- C3 as stated is false: for the concrete instance `asymS3` the
mode-coupling matrix produced by `get_M` has `M[0,1] = 9/(4π)` but
`M[1,0] = 3/(4π)`, so it is not symmetric even in exact arithmetic. -/
theorem C3_symmetry_counterexample : asymS3.Mll 0 1 ≠ asymS3.Mll 1 0 := by
  rw [asymS3_entry01, asymS3_entry10]
  have h4 : (4 : ℝ) * Real.pi ≠ 0 := by positivity
  intro h
  field_simp at h
  norm_num at h

/-- C3 amended: the matrix produced by `get_M` is not symmetric; the relation
that the `l1 ↔ l2`-symmetric summand actually yields is the detailed-balance
identity `(2·l1+1)·M[l1,l2] = (2·l2+1)·M[l2,l1]`, valid for any Wigner-3j
provider that is symmetric in its first two arguments (as the true 3j symbol
with zero magnetic numbers is, since `l1+l2+l3` is even on every kept term). -/
theorem C3_symmetry_amended (self : MaskDeconvolution)
    (hsym : ∀ a b c, self.w3j000 a b c = self.w3j000 b a c) (l1 l2 : ℕ)
    (h1 : l1 ≤ self.lmax) (h2 : l2 ≤ self.lmax) :
    (2 * (l1 : ℝ) + 1) * self.get_M false l1 l2
      = (2 * (l2 : ℝ) + 1) * self.get_M false l2 l1 := by
  unfold MaskDeconvolution.get_M
  rw [if_pos ⟨h1, h2⟩, if_pos ⟨h2, h1⟩, getMinner_eq_sum, getMinner_eq_sum,
    mul_div_assoc', mul_div_assoc']
  congr 1
  have hA : (Finset.Icc (max (l2 - l1) (l1 - l2)) (l2 + l1)).filter
        (fun l3 => (l2 + l1 + l3) % 2 = 0)
      = (Finset.Icc (max (l1 - l2) (l2 - l1)) (l1 + l2)).filter
        (fun l3 => (l1 + l2 + l3) % 2 = 0) := by
    apply Finset.ext
    intro l3
    simp only [Finset.mem_filter, Finset.mem_Icc, max_le_iff]
    omega
  rw [Finset.mul_sum, Finset.mul_sum, hA]
  apply Finset.sum_congr rfl
  intro l3 _
  rw [hsym l2 l1 l3]
  ring

/-- Witness for the amended C3, at `l1 = 0`, `l2 = 1` on the counterexample
instance (whose constant provider is trivially symmetric). -/
theorem C3_symmetry_amended_witness :
    ((∀ a b c : ℕ, asymS3.w3j000 a b c = asymS3.w3j000 b a c) ∧
        0 ≤ asymS3.lmax ∧ 1 ≤ asymS3.lmax) ∧
      (2 * ((0 : ℕ) : ℝ) + 1) * asymS3.get_M false 0 1
        = (2 * ((1 : ℕ) : ℝ) + 1) * asymS3.get_M false 1 0 :=
  ⟨⟨fun _ _ _ => rfl, Nat.zero_le _, le_refl 1⟩,
    C3_symmetry_amended asymS3 (fun _ _ _ => rfl) 0 1 (Nat.zero_le _)
      (le_refl 1)⟩

/-- C4: with the debug window (`4π` at `ℓ = 0`, else `0`), `get_M` yields the
identity matrix on `0 ≤ i, j ≤ lmax`.  The hypothesis records the closed form
`wigner(l,l,0)² = 1/(2l+1)` of the external Wigner-3j provider (the only
values of the collaborator that the debug computation touches). -/
theorem C4_debug_identity (self : MaskDeconvolution)
    (hw : ∀ l : ℕ, l ≤ self.lmax →
      (self.w3j000 l l 0) ^ 2 = 1 / (2 * (l : ℝ) + 1))
    (i j : ℕ) (hi : i ≤ self.lmax) (hj : j ≤ self.lmax) :
    self.get_M true i j = if i = j then 1 else 0 := by
  unfold MaskDeconvolution.get_M
  rw [if_pos ⟨hi, hj⟩, getMinner_eq_sum]
  have hW0 : ∀ l3 : ℕ, self.W l3 true = if l3 = 0 then 4 * Real.pi else 0 := by
    intro l3; simp [MaskDeconvolution.W]
  by_cases hij : i = j
  · subst hij
    have hmem : (0 : ℕ) ∈ (Finset.Icc (max (i - i) (i - i)) (i + i)).filter
        (fun l3 => (i + i + l3) % 2 = 0) := by
      simp only [Finset.mem_filter, Finset.mem_Icc, max_le_iff]
      omega
    rw [Finset.sum_eq_single 0
      (by
        intro b _ hb
        rw [hW0 b, if_neg hb]
        ring)
      (by intro h; exact absurd hmem h)]
    rw [hW0 0, if_pos rfl, hw i hi, if_pos rfl]
    have hpi : Real.pi ≠ 0 := Real.pi_ne_zero
    have hden : (2 * (i : ℝ) + 1) ≠ 0 := by positivity
    push_cast
    field_simp
  · rw [if_neg hij, Finset.sum_eq_zero, zero_div]
    intro b hb
    have hb0 : b ≠ 0 := by
      rcases Finset.mem_filter.mp hb with ⟨hb', _⟩
      rcases Finset.mem_Icc.mp hb' with ⟨hlb, _⟩
      rcases max_le_iff.mp (le_refl (max (i - j) (j - i))) with _
      intro h0
      subst h0
      have : max (i - j) (j - i) = 0 := Nat.le_zero.mp hlb
      rcases Nat.max_eq_zero_iff.mp this with ⟨h1, h2⟩
      exact hij (by omega)
    rw [hW0 b, if_neg hb0]
    ring

/-- A concrete instance for the C4 witness whose provider satisfies the 3j
closed form at the values the debug computation reads. -/
noncomputable def debugS4 : MaskDeconvolution :=
  MaskDeconvolution.init 1 []
    (fun l1 _ _ => Real.sqrt (1 / (2 * (l1 : ℝ) + 1)))

/-- Helper: the witness provider satisfies the squared-3j closed form. -/
lemma debugS4_hw :
    ∀ l : ℕ, l ≤ debugS4.lmax →
      (debugS4.w3j000 l l 0) ^ 2 = 1 / (2 * (l : ℝ) + 1) := by
  intro l _
  have h0 : (0 : ℝ) ≤ 1 / (2 * (l : ℝ) + 1) := by positivity
  have hfun : debugS4.w3j000 l l 0 = Real.sqrt (1 / (2 * (l : ℝ) + 1)) := rfl
  rw [hfun, Real.sq_sqrt h0]

/-- Witness for C4 at `lmax = 1`: a diagonal and an off-diagonal entry. -/
theorem C4_debug_identity_witness :
    ((∀ l : ℕ, l ≤ debugS4.lmax →
        (debugS4.w3j000 l l 0) ^ 2 = 1 / (2 * (l : ℝ) + 1)) ∧
      1 ≤ debugS4.lmax) ∧
      debugS4.get_M true 1 1 = (if 1 = 1 then (1 : ℝ) else 0) ∧
      debugS4.get_M true 0 1 = (if 0 = 1 then (1 : ℝ) else 0) :=
  ⟨⟨debugS4_hw, le_refl 1⟩,
    C4_debug_identity debugS4 debugS4_hw 1 1 (le_refl 1) (le_refl 1),
    C4_debug_identity debugS4 debugS4_hw 0 1 (Nat.zero_le _) (le_refl 1)⟩

/-- Running the `init_binning` loop over the block starts
`s·L, (s+1)·L, …, (s+m-1)·L` succeeds when every row index stays below `nb`,
and fills the corresponding rows. -/
lemma binLoop_ok (lmax L nb : ℕ) (hL : 0 < L) :
    ∀ (m s : ℕ) (B Bnw : ℕ → ℕ → ℝ), s + m ≤ nb →
      binLoop lmax L nb ((List.range' s m).map (fun k => k * L)) B Bnw
        = .ok
          (fun i j =>
            if s ≤ i ∧ i < s + m ∧ i * L ≤ j ∧ j < min ((i + 1) * L) (lmax + 1)
            then 1 / (L : ℝ) else B i j,
           fun i j =>
            if s ≤ i ∧ i < s + m ∧ i * L ≤ j ∧ j < min ((i + 1) * L) (lmax + 1)
            then 1 else Bnw i j) := by
  intro m
  induction m with
  | zero =>
      intro s B Bnw _
      simp only [List.range', List.map_nil, binLoop, Except.ok.injEq,
        Prod.mk.injEq]
      constructor <;> (funext i j; rw [if_neg (by omega)])
  | succ m ih =>
      intro s B Bnw hs
      rw [List.range'_succ, List.map_cons]
      have hdiv : s * L / L = s := Nat.mul_div_left s hL
      simp only [binLoop, hdiv]
      rw [if_pos (by omega : s < nb), ih (s + 1) _ _ (by omega)]
      simp only [Except.ok.injEq, Prod.mk.injEq]
      have hmul : (s + 1) * L = s * L + L := by ring
      constructor
      · funext i j
        by_cases hi : i = s
        · subst hi
          simp only [setRow, hmul, true_and]
          split_ifs <;> first | rfl | omega
        · simp only [setRow]
          split_ifs <;> first | rfl | omega
      · funext i j
        by_cases hi : i = s
        · subst hi
          simp only [setRow, hmul, true_and]
          split_ifs <;> first | rfl | omega
        · simp only [setRow]
          split_ifs <;> first | rfl | omega

/-- Closed form of the weighted binning operator `bins` when
`lperBin ∣ lmax+1`. -/
noncomputable def binsF (lmax L : ℕ) : ℕ → ℕ → ℝ :=
  fun b l =>
    if b < (lmax + 1) / L ∧ b * L ≤ l ∧ l < (b + 1) * L ∧ ¬(b = 0 ∧ l = 0)
    then 1 / (L : ℝ) else 0

/-- Closed form of the unweighted binning operator `bins_no_weight` when
`lperBin ∣ lmax+1`. -/
noncomputable def binsNWF (lmax L : ℕ) : ℕ → ℕ → ℝ :=
  fun b l =>
    if b < (lmax + 1) / L ∧ b * L ≤ l ∧ l < (b + 1) * L ∧ ¬(b = 0 ∧ l = 0)
    then 1 else 0

/-- The loop range of `init_binning` is exactly the `nb` block starts when
`lperBin` divides `lmax+1`. -/
lemma pyRange_dvd (lmax L : ℕ) (hL : 0 < L) (hdvd : L ∣ (lmax + 1)) :
    pyRange 0 (lmax + 1) L
      = (List.range' 0 ((lmax + 1) / L)).map (fun k => k * L) := by
  obtain ⟨nb, hnb⟩ := hdvd
  have hq : (lmax + 1) / L = nb := by
    rw [hnb]; exact Nat.mul_div_cancel_left nb hL
  have hcount : (lmax + 1 - 0 + L - 1) / L = nb := by
    have h1 : lmax + 1 - 0 + L - 1 = L * nb + (L - 1) := by omega
    rw [h1, Nat.mul_add_div hL, Nat.div_eq_of_lt (by omega), Nat.add_zero]
  unfold pyRange
  rw [hcount, hq, List.range_eq_range']
  simp only [Nat.zero_add]

/-- Closed form of `init_binning` when `lperBin` divides `lmax+1`: the call
succeeds, returning the two block-indicator operators (monopole weight
zeroed) and the weighted bin centres. -/
lemma init_binning_dvd (lmax L : ℕ) (hL : 0 < L) (hdvd : L ∣ (lmax + 1)) :
    init_binning lmax L
      = .ok (binsF lmax L, binsNWF lmax L,
          fun b => ∑ l in Finset.range (lmax + 1), binsF lmax L b l * (l : ℝ)) := by
  have hL0 : L ≠ 0 := Nat.pos_iff_ne_zero.mp hL
  have hnb : ((lmax + 1) / L) * L = lmax + 1 := Nat.div_mul_cancel hdvd
  have hBF : (fun i j => if i = 0 ∧ j = 0 then (0 : ℝ) else
      if 0 ≤ i ∧ i < 0 + (lmax + 1) / L ∧ i * L ≤ j ∧
          j < min ((i + 1) * L) (lmax + 1)
      then 1 / (L : ℝ) else 0) = binsF lmax L := by
    funext b l
    simp only [binsF]
    by_cases hb : b < (lmax + 1) / L
    · have hble : (b + 1) * L ≤ lmax + 1 := by
        calc (b + 1) * L ≤ ((lmax + 1) / L) * L :=
              Nat.mul_le_mul_right L (by omega)
          _ = lmax + 1 := hnb
      rw [min_eq_left hble]
      split_ifs <;> first | rfl | omega
    · split_ifs <;> first | rfl | omega
  have hBnwF : (fun i j => if i = 0 ∧ j = 0 then (0 : ℝ) else
      if 0 ≤ i ∧ i < 0 + (lmax + 1) / L ∧ i * L ≤ j ∧
          j < min ((i + 1) * L) (lmax + 1)
      then 1 else 0) = binsNWF lmax L := by
    funext b l
    simp only [binsNWF]
    by_cases hb : b < (lmax + 1) / L
    · have hble : (b + 1) * L ≤ lmax + 1 := by
        calc (b + 1) * L ≤ ((lmax + 1) / L) * L :=
              Nat.mul_le_mul_right L (by omega)
          _ = lmax + 1 := hnb
      rw [min_eq_left hble]
      split_ifs <;> first | rfl | omega
    · split_ifs <;> first | rfl | omega
  unfold init_binning
  rw [if_neg hL0, pyRange_dvd lmax L hL hdvd,
    binLoop_ok lmax L ((lmax + 1) / L) hL ((lmax + 1) / L) 0
      (fun _ _ => 0) (fun _ _ => 0) (by omega)]
  simp only [Except.ok.injEq, Prod.mk.injEq]
  refine ⟨?_, ?_, ?_⟩
  · rw [← hBF]
  · rw [← hBnwF]
  · rw [← hBF]

/-- C6 contradicted by the code: with `lmax = 2`, `lperBin = 2` (so that
`lperBin` does not divide `lmax+1`), the loop in `init_binning` reaches
`i = 2` and writes row `i // lperBin = 1` of a 1-row array, so numpy raises
`IndexError` instead of dropping the leftover multipole. -/
theorem C6_binning_index_crash : init_binning 2 2 = .error .indexError := by
  have hrange : pyRange 0 3 2 = [0, 2] := rfl
  unfold init_binning
  rw [if_neg (by norm_num), hrange]
  simp only [binLoop]
  norm_num

/-- Row `0` of the weighted operator is the `[1, L)` indicator scaled by
`1/L` (the monopole weight having been zeroed). -/
lemma binsF_zero_row (lmax L l : ℕ) (hL : 0 < L) (hdvd : L ∣ (lmax + 1)) :
    binsF lmax L 0 l = if l ∈ Finset.Ico 1 L then 1 / (L : ℝ) else 0 := by
  have hnb : 0 < (lmax + 1) / L := Nat.div_pos (Nat.le_of_dvd (by omega) hdvd) hL
  simp only [binsF, Finset.mem_Ico, true_and, zero_mul, zero_add, one_mul]
  split_ifs <;> first | rfl | omega

/-- Row `b ≥ 1` of the weighted operator is the block indicator scaled by
`1/L`. -/
lemma binsF_pos_row (lmax L b l : ℕ) (hb1 : 1 ≤ b) (hb : b < (lmax + 1) / L) :
    binsF lmax L b l
      = if l ∈ Finset.Ico (b * L) ((b + 1) * L) then 1 / (L : ℝ) else 0 := by
  simp only [binsF, Finset.mem_Ico, true_and]
  split_ifs <;> first | rfl | omega

/-- Summing a constant over an interval indicator inside `range N`. -/
lemma sum_indicator_Ico (N a c : ℕ) (v : ℝ) (h : c ≤ N) :
    ∑ l in Finset.range N, (if l ∈ Finset.Ico a c then v else 0)
      = ((c - a : ℕ) : ℝ) * v := by
  rw [Finset.sum_ite_mem,
    Finset.inter_eq_right.mpr (by
      intro x hx
      rw [Finset.mem_Ico] at hx
      rw [Finset.mem_range]
      omega),
    Finset.sum_const, Nat.card_Ico, nsmul_eq_mul]

/-- Summing `l`-weighted interval-indicator terms inside `range N`. -/
lemma sum_indicator_Ico_mul (N a c : ℕ) (v : ℝ) (h : c ≤ N) :
    ∑ l in Finset.range N, (if l ∈ Finset.Ico a c then v else 0) * (l : ℝ)
      = v * ∑ l in Finset.Ico a c, (l : ℝ) := by
  have hpt : ∀ l : ℕ, (if l ∈ Finset.Ico a c then v else 0) * (l : ℝ)
      = if l ∈ Finset.Ico a c then v * l else 0 := by
    intro l
    split_ifs <;> simp
  rw [Finset.sum_congr rfl (fun l _ => hpt l), Finset.sum_ite_mem,
    Finset.inter_eq_right.mpr (by
      intro x hx
      rw [Finset.mem_Ico] at hx
      rw [Finset.mem_range]
      omega),
    Finset.mul_sum]

/-- The sum of the first `L` naturals with the zero term dropped. -/
lemma sum_Ico_one_id (L : ℕ) (hL1 : 1 ≤ L) :
    ∑ l in Finset.Ico 1 L, l = ∑ l in Finset.range L, l := by
  rw [Finset.range_eq_Ico,
    ← Finset.sum_Ico_consecutive (fun l => l) (Nat.zero_le 1) hL1]
  simp [Finset.sum_Ico_eq_sum_range]

/-- Gauss sum over `[1, L)`, in `ℝ`. -/
lemma sum_Ico_one_cast (L : ℕ) (hL1 : 1 ≤ L) :
    ∑ l in Finset.Ico 1 L, (l : ℝ) = (L : ℝ) * ((L : ℝ) - 1) / 2 := by
  have h1 : (∑ l in Finset.Ico 1 L, l) * 2 = L * (L - 1) := by
    rw [sum_Ico_one_id L hL1]
    exact Finset.sum_range_id_mul_two L
  have h2 := congrArg (Nat.cast : ℕ → ℝ) h1
  push_cast [Nat.cast_sub hL1] at h2
  linarith

/-- C5 as stated is false: with `lmax = 3`, `lperBin = 2` the first row of the
weighted operator returned by `init_binning` sums to `1/2`, not `1`, because
the `ℓ = 0` weight is zeroed after the uniform fill without renormalising. -/
theorem C5_rowsum_counterexample :
    init_binning 3 2
        = .ok (binsF 3 2, binsNWF 3 2,
            fun b => ∑ l in Finset.range (3 + 1), binsF 3 2 b l * (l : ℝ)) ∧
      (∑ l in Finset.range (3 + 1), binsF 3 2 0 l) ≠ 1 := by
  constructor
  · exact init_binning_dvd 3 2 (by norm_num) (by norm_num)
  · norm_num [Finset.sum_range_succ, binsF]

/-- C5 amended: when the construction succeeds (`lperBin ∣ lmax+1`, see C6),
the `ℓ = 0` weight is zero in both operators and every row `b ≥ 1` of `bins`
sums to 1, but row 0 sums to `(lperBin-1)/lperBin` because the monopole
exclusion is not renormalised. -/
theorem C5_rowsum_amended (lmax L : ℕ) (hL : 0 < L) (hdvd : L ∣ (lmax + 1)) :
    ∃ B Bnw E, init_binning lmax L = .ok (B, Bnw, E) ∧
      B 0 0 = 0 ∧ Bnw 0 0 = 0 ∧
      (∑ l in Finset.range (lmax + 1), B 0 l) = ((L : ℝ) - 1) / L ∧
      (∀ b, 1 ≤ b → b < (lmax + 1) / L →
        (∑ l in Finset.range (lmax + 1), B b l) = 1) := by
  have hL0 : (L : ℝ) ≠ 0 := Nat.cast_ne_zero.mpr (by omega)
  have hLle : L ≤ lmax + 1 := Nat.le_of_dvd (by omega) hdvd
  refine ⟨binsF lmax L, binsNWF lmax L, _,
    init_binning_dvd lmax L hL hdvd, ?_, ?_, ?_, ?_⟩
  · simp [binsF]
  · simp [binsNWF]
  · rw [Finset.sum_congr rfl (fun l _ => binsF_zero_row lmax L l hL hdvd),
      sum_indicator_Ico (lmax + 1) 1 L (1 / (L : ℝ)) hLle,
      Nat.cast_sub (by omega : 1 ≤ L), Nat.cast_one, mul_one_div]
  · intro b hb1 hb
    rw [Finset.sum_congr rfl (fun l _ => binsF_pos_row lmax L b l hb1 hb),
      sum_indicator_Ico (lmax + 1) (b * L) ((b + 1) * L) (1 / (L : ℝ)) (by
        calc (b + 1) * L ≤ ((lmax + 1) / L) * L :=
              Nat.mul_le_mul_right L (by omega)
          _ = lmax + 1 := Nat.div_mul_cancel hdvd)]
    have hcl : ((b + 1) * L - b * L : ℕ) = L := by
      have h : (b + 1) * L = b * L + L := by ring
      omega
    rw [hcl, mul_one_div, div_self hL0]

/-- Witness for the amended C5 at `lmax = 3`, `lperBin = 2`. -/
theorem C5_rowsum_amended_witness :
    ((0 : ℕ) < 2 ∧ (2 : ℕ) ∣ (3 + 1)) ∧
      (∃ B Bnw E, init_binning 3 2 = .ok (B, Bnw, E) ∧
        B 0 0 = 0 ∧ Bnw 0 0 = 0 ∧
        (∑ l in Finset.range (3 + 1), B 0 l) = (((2 : ℕ) : ℝ) - 1) / (2 : ℕ) ∧
        (∀ b, 1 ≤ b → b < (3 + 1) / 2 →
          (∑ l in Finset.range (3 + 1), B b l) = 1)) :=
  ⟨⟨by norm_num, by norm_num⟩,
    C5_rowsum_amended 3 2 (by norm_num) (by norm_num)⟩

/-- C9: with `lperBin ≥ 2` dividing `lmax+1`, the reported bin centres
satisfy `binned_ells[0] = (lperBin-1)/2`, which lies strictly below the
arithmetic mean of the multipoles actually carrying weight in bin 0 (namely
`1 … lperBin-1`), while every later bin's centre is the exact arithmetic mean
of its block. -/
theorem C9_binned_ells (lmax L : ℕ) (hL2 : 2 ≤ L) (hdvd : L ∣ (lmax + 1)) :
    ∃ B Bnw E, init_binning lmax L = .ok (B, Bnw, E) ∧
      E 0 = ((L : ℝ) - 1) / 2 ∧
      ((L : ℝ) - 1) / 2
        < (∑ l in Finset.Ico 1 L, (l : ℝ)) / ((Finset.Ico 1 L).card : ℝ) ∧
      (∀ b, 1 ≤ b → b < (lmax + 1) / L →
        E b = (∑ l in Finset.Ico (b * L) ((b + 1) * L), (l : ℝ)) / L) := by
  have hL : 0 < L := by omega
  have hL0 : (L : ℝ) ≠ 0 := Nat.cast_ne_zero.mpr (by omega)
  have hLR : (1 : ℝ) < (L : ℝ) := by exact_mod_cast hL2
  have hLle : L ≤ lmax + 1 := Nat.le_of_dvd (by omega) hdvd
  refine ⟨binsF lmax L, binsNWF lmax L, _,
    init_binning_dvd lmax L hL hdvd, ?_, ?_, ?_⟩
  · have h1 : ∀ l ∈ Finset.range (lmax + 1),
        binsF lmax L 0 l * (l : ℝ)
          = (if l ∈ Finset.Ico 1 L then 1 / (L : ℝ) else 0) * l :=
      fun l _ => by rw [binsF_zero_row lmax L l hL hdvd]
    rw [Finset.sum_congr rfl h1, sum_indicator_Ico_mul (lmax + 1) 1 L _ hLle,
      sum_Ico_one_cast L (by omega)]
    field_simp
  · rw [sum_Ico_one_cast L (by omega), Nat.card_Ico,
      Nat.cast_sub (by omega : 1 ≤ L), Nat.cast_one]
    have hM : (L : ℝ) - 1 ≠ 0 := by linarith
    have hq : (L : ℝ) * ((L : ℝ) - 1) / 2 / ((L : ℝ) - 1) = (L : ℝ) / 2 := by
      field_simp
      ring
    rw [hq]
    linarith
  · intro b hb1 hb
    have h1 : ∀ l ∈ Finset.range (lmax + 1),
        binsF lmax L b l * (l : ℝ)
          = (if l ∈ Finset.Ico (b * L) ((b + 1) * L) then 1 / (L : ℝ) else 0)
              * l :=
      fun l _ => by rw [binsF_pos_row lmax L b l hb1 hb]
    rw [Finset.sum_congr rfl h1,
      sum_indicator_Ico_mul (lmax + 1) (b * L) ((b + 1) * L) _ (by
        calc (b + 1) * L ≤ ((lmax + 1) / L) * L :=
              Nat.mul_le_mul_right L (by omega)
          _ = lmax + 1 := Nat.div_mul_cancel hdvd),
      one_div_mul_eq_div]

/-- Witness for C9 at `lmax = 3`, `lperBin = 2`. -/
theorem C9_binned_ells_witness :
    ((2 : ℕ) ≤ 2 ∧ (2 : ℕ) ∣ (3 + 1)) ∧
      (∃ B Bnw E, init_binning 3 2 = .ok (B, Bnw, E) ∧
        E 0 = (((2 : ℕ) : ℝ) - 1) / 2 ∧
        (((2 : ℕ) : ℝ) - 1) / 2
          < (∑ l in Finset.Ico (1 : ℕ) 2, (l : ℝ))
              / (((Finset.Ico (1 : ℕ) 2).card : ℕ) : ℝ) ∧
        (∀ b, 1 ≤ b → b < (3 + 1) / 2 →
          E b = (∑ l in Finset.Ico (b * 2) ((b + 1) * 2), (l : ℝ)) / 2)) :=
  ⟨⟨le_refl 2, by norm_num⟩, C9_binned_ells 3 2 (le_refl 2) (by norm_num)⟩

/-- A freshly constructed instance (no `__call__` yet). -/
noncomputable def freshS : MaskDeconvolution :=
  MaskDeconvolution.init 1 [] (fun _ _ _ => 0)

/-- An instance on which `__call__` has stored a cached inverse (and binning
operators), as after a successful deconvolution call. -/
noncomputable def filledS : MaskDeconvolution :=
  { freshS with
      lperBin := some 2
      bins := some (fun _ _ => 0)
      bins_no_weight := some (fun _ _ => 0)
      binned_ells := some (fun _ => 0)
      Mbb_inv := some (1, fun _ _ => 0) }

/-- What `__call__` returns when the length assert passes, `init_binning`
succeeds and the binned matrix is nonsingular: the updated instance (with the
freshly cached attributes) and the pair `(binned_ells, Cb_decoupled)`. -/
lemma call_ok (self : MaskDeconvolution) (C_l : List ℝ) (L : ℕ)
    (B Bnw : ℕ → ℕ → ℝ) (E : ℕ → ℝ) (Minv : ℕ → ℕ → ℝ)
    (hlen : C_l.length = self.lmax + 1)
    (hinit : init_binning self.lmax L = .ok (B, Bnw, E))
    (hinv : npInv ((self.lmax + 1) / L)
        (bin_matrix self.lmax B Bnw self.Mll) = .ok Minv) :
    self.call C_l L = .ok
      ({ self with
          lperBin := some L
          bins := some B
          bins_no_weight := some Bnw
          binned_ells := some E
          Mbb_inv := some ((self.lmax + 1) / L, Minv) },
       (E, decouple_Cls ((self.lmax + 1) / L) Minv
            (bin_Cls self.lmax B (fun l => C_l.getD l 0)))) := by
  unfold MaskDeconvolution.call
  rw [if_pos hlen, hinit]
  simp only [hinv]

/-- C7 as stated is false for the theory-convolution call: on a fresh
instance (`lmax = 1`) a spectrum of wrong length `1 ≠ 2` makes
`convolve_theory_Cls` fail with the `Mbb_inv` attribute error, not with the
length-contract assertion. -/
theorem C7_length_counterexample :
    freshS.convolve_theory_Cls [0] = .error (.attributeError "Mbb_inv") ∧
      PyErr.attributeError "Mbb_inv"
        ≠ PyErr.assertionError "Clt must be provided up to the lmax" := by
  constructor
  · rfl
  · intro h
    exact PyErr.noConfusion h

/-- C7 amended: a wrong-length spectrum makes `__call__` fail immediately
with its length-contract assertion (always), and makes
`convolve_theory_Cls` fail with its length-contract assertion on any instance
whose cached inverse exists; no partial result is returned in either case. -/
theorem C7_length_contract :
    (∀ (self : MaskDeconvolution) (C_l : List ℝ) (L : ℕ),
        C_l.length ≠ self.lmax + 1 →
        self.call C_l L = .error (.assertionError
          "C_l must be provided up to the lmax with which the class was initialized")) ∧
    (∀ (self : MaskDeconvolution) (Clt : List ℝ) (n : ℕ)
        (Minv : ℕ → ℕ → ℝ),
        self.Mbb_inv = some (n, Minv) → Clt.length ≠ self.lmax + 1 →
        self.convolve_theory_Cls Clt
          = .error (.assertionError "Clt must be provided up to the lmax")) := by
  constructor
  · intro self C_l L h
    unfold MaskDeconvolution.call
    rw [if_neg h]
  · intro self Clt n Minv hM h
    unfold MaskDeconvolution.convolve_theory_Cls
    rw [hM]
    simp only [if_neg h]

/-- Witness for the amended C7: the deconvolution call on a fresh instance
and the theory convolution on an instance with a cached inverse, both with an
empty spectrum (`0 ≠ 2`). -/
theorem C7_length_contract_witness :
    (([] : List ℝ).length ≠ freshS.lmax + 1 ∧
        filledS.Mbb_inv = some (1, fun _ _ => 0) ∧
        ([] : List ℝ).length ≠ filledS.lmax + 1) ∧
      freshS.call [] 2 = .error (.assertionError
        "C_l must be provided up to the lmax with which the class was initialized") ∧
      filledS.convolve_theory_Cls []
        = .error (.assertionError "Clt must be provided up to the lmax") :=
  ⟨⟨by simp [freshS, MaskDeconvolution.init], rfl,
      by simp [filledS, freshS, MaskDeconvolution.init]⟩,
    C7_length_contract.1 freshS [] 2
      (by simp [freshS, MaskDeconvolution.init]),
    C7_length_contract.2 filledS [] 1 (fun _ _ => 0) rfl
      (by simp [filledS, freshS, MaskDeconvolution.init])⟩

/-- C8 as stated is false: on a fresh instance the theory-convolution call
(here with a correctly sized spectrum) fails with an `AttributeError` for the
never-assigned `Mbb_inv` attribute — the documented assertion message never
fires, because evaluating `self.Mbb_inv` raises before the assert can run. -/
theorem C8_fresh_counterexample :
    freshS.convolve_theory_Cls [0, 0] = .error (.attributeError "Mbb_inv") ∧
      PyErr.attributeError "Mbb_inv"
        ≠ PyErr.assertionError "Must call __call__ before convolving theory Cls" := by
  constructor
  · rfl
  · intro h
    exact PyErr.noConfusion h

/-- C8 amended: on any freshly constructed instance the theory-convolution
call fails immediately — with the `Mbb_inv` attribute error, since `__init__`
never creates that attribute — and no default or garbage vector is returned. -/
theorem C8_fresh_convolve_amended (lmax : ℕ) (W_l : List ℝ)
    (w3j : ℕ → ℕ → ℕ → ℝ) (Clt : List ℝ) :
    (MaskDeconvolution.init lmax W_l w3j).convolve_theory_Cls Clt
      = .error (.attributeError "Mbb_inv") := rfl

/-- C10: the pair returned by a deconvolution call depends only on `lmax`,
the cached coupling matrix `Mll` (both fixed at construction) and the call's
own arguments — two instances agreeing on those fields return the same output
— and a successful call never modifies the constructor-derived fields, so
earlier calls cannot influence later ones. -/
theorem C10_history_independence :
    (∀ (s1 s2 : MaskDeconvolution) (C_l : List ℝ) (L : ℕ),
        s1.lmax = s2.lmax → s1.Mll = s2.Mll →
        Except.map (fun p => p.2) (s1.call C_l L)
          = Except.map (fun p => p.2) (s2.call C_l L)) ∧
    (∀ (s : MaskDeconvolution) (C_l : List ℝ) (L : ℕ)
        (s' : MaskDeconvolution) (out : (ℕ → ℝ) × (ℕ → ℝ)),
        s.call C_l L = .ok (s', out) →
        s'.lmax = s.lmax ∧ s'.W_l = s.W_l ∧ s'.w3j000 = s.w3j000 ∧
          s'.Mll = s.Mll) := by
  constructor
  · intro s1 s2 C_l L h1 h2
    unfold MaskDeconvolution.call
    rw [h1, h2]
    by_cases hlen : C_l.length = s2.lmax + 1
    · rw [if_pos hlen, if_pos hlen]
      cases hinit : init_binning s2.lmax L with
      | error e => rfl
      | ok t =>
          obtain ⟨B, Bnw, E⟩ := t
          cases hinv : npInv ((s2.lmax + 1) / L)
              (bin_matrix s2.lmax B Bnw s2.Mll) with
          | error e => simp only [hinv, Except.map]
          | ok Minv => simp only [hinv, Except.map]
    · rw [if_neg hlen, if_neg hlen]
  · intro s C_l L s' out h
    unfold MaskDeconvolution.call at h
    by_cases hlen : C_l.length = s.lmax + 1
    · rw [if_pos hlen] at h
      cases hinit : init_binning s.lmax L with
      | error e =>
          rw [hinit] at h
          exact absurd h (by simp)
      | ok t =>
          obtain ⟨B, Bnw, E⟩ := t
          rw [hinit] at h
          cases hinv : npInv ((s.lmax + 1) / L)
              (bin_matrix s.lmax B Bnw s.Mll) with
          | error e => simp [hinv] at h
          | ok Minv =>
              simp only [hinv, Except.ok.injEq, Prod.mk.injEq] at h
              obtain ⟨hs, -⟩ := h
              subst hs
              exact ⟨rfl, rfl, rfl, rfl⟩
    · rw [if_neg hlen] at h
      exact absurd h (by simp)

/-- A constructor-built instance whose binned coupling matrix is
nonsingular: `lmax = 1`, window `[1, 1, 1]`, constant-1 Wigner-3j stand-in;
with `lperBin = 2` its `Mbb` is `[[9/(4π)]]`. -/
noncomputable def wS : MaskDeconvolution :=
  MaskDeconvolution.init 1 [1, 1, 1] (fun _ _ _ => 1)

/-- Helper: the `(1,1)` entry of the coupling matrix of `wS`. -/
lemma wS_M11 : wS.Mll 1 1 = 18 / (4 * Real.pi) := by
  have h : wS.Mll 1 1 = wS.getMinner false 1 1 / (4 * Real.pi) := by
    simp [wS, MaskDeconvolution.init, MaskDeconvolution.get_M,
      MaskDeconvolution.getMinner, MaskDeconvolution.W]
  rw [h, getMinner_eq_sum]
  congr 1
  have hset : (Finset.Icc (max (1 - 1) (1 - 1) : ℕ) (1 + 1)).filter
      (fun l3 => (1 + 1 + l3) % 2 = 0) = {0, 2} := by decide
  rw [hset]
  have hW0 : wS.W 0 false = 1 := by
    simp [wS, MaskDeconvolution.init, MaskDeconvolution.W]
  have hW2 : wS.W 2 false = 1 := by
    simp [wS, MaskDeconvolution.init, MaskDeconvolution.W]
  have hw : ∀ a b c : ℕ, wS.w3j000 a b c = 1 := fun _ _ _ => rfl
  rw [Finset.sum_insert (by decide), Finset.sum_singleton]
  simp only [hW0, hW2, hw]
  norm_num

/-- Helper: the single entry of the binned coupling matrix of `wS` with
`lperBin = 2` is `9/(4π)`. -/
lemma wS_Mbb : bin_matrix wS.lmax (binsF 1 2) (binsNWF 1 2) wS.Mll 0 0
    = 9 / (4 * Real.pi) := by
  show bin_matrix 1 (binsF 1 2) (binsNWF 1 2) wS.Mll 0 0 = _
  norm_num [bin_matrix, npMatMul, Finset.sum_range_succ,
    Finset.sum_range_zero, binsF, binsNWF, wS_M11]
  ring

/-- Helper: the binned coupling matrix of `wS` is nonsingular. -/
lemma wS_det_ne : (Matrix.of fun a b : Fin ((wS.lmax + 1) / 2) =>
    bin_matrix wS.lmax (binsF 1 2) (binsNWF 1 2) wS.Mll a.1 b.1).det ≠ 0 := by
  have h : (Matrix.of fun a b : Fin ((wS.lmax + 1) / 2) =>
      bin_matrix wS.lmax (binsF 1 2) (binsNWF 1 2) wS.Mll a.1 b.1).det
      = bin_matrix wS.lmax (binsF 1 2) (binsNWF 1 2) wS.Mll 0 0 := by
    show (Matrix.of fun a b : Fin 1 =>
      bin_matrix wS.lmax (binsF 1 2) (binsNWF 1 2) wS.Mll a.1 b.1).det = _
    rw [Matrix.det_fin_one]
    rfl
  rw [h, wS_Mbb]
  positivity

/-- Helper: `np.linalg.inv` succeeds on the binned coupling matrix of `wS`. -/
lemma wS_inv_ok : npInv ((wS.lmax + 1) / 2)
    (bin_matrix wS.lmax (binsF 1 2) (binsNWF 1 2) wS.Mll)
    = .ok (npInvVal ((wS.lmax + 1) / 2)
        (bin_matrix wS.lmax (binsF 1 2) (binsNWF 1 2) wS.Mll)) := by
  unfold npInv
  rw [if_neg wS_det_ne]

/-- An instance equal to `wS` except for a stale attribute left by an
earlier call. -/
noncomputable def histW : MaskDeconvolution :=
  { wS with lperBin := some 99 }

/-- Witness for C10: `wS` and `histW` share `lmax` and `Mll` and give
identical outputs, and a concrete successful call (nonsingular `Mbb`)
preserves the constructor-derived fields. -/
theorem C10_history_independence_witness :
    (wS.lmax = histW.lmax ∧ wS.Mll = histW.Mll ∧
        ([0, 0] : List ℝ).length = wS.lmax + 1) ∧
      Except.map (fun p => p.2) (wS.call [0, 0] 2)
        = Except.map (fun p => p.2) (histW.call [0, 0] 2) ∧
      (∃ s' out, wS.call [0, 0] 2 = .ok (s', out) ∧
        (s'.lmax = wS.lmax ∧ s'.W_l = wS.W_l ∧
          s'.w3j000 = wS.w3j000 ∧ s'.Mll = wS.Mll)) := by
  have hinit : init_binning wS.lmax 2
      = .ok (binsF 1 2, binsNWF 1 2,
          fun b => ∑ l in Finset.range (1 + 1), binsF 1 2 b l * (l : ℝ)) :=
    init_binning_dvd 1 2 (by norm_num) (by norm_num)
  have hcall := call_ok wS [0, 0] 2 _ _ _ _ rfl hinit wS_inv_ok
  exact ⟨⟨rfl, rfl, rfl⟩,
    C10_history_independence.1 wS histW [0, 0] 2 rfl rfl,
    ⟨_, _, hcall, C10_history_independence.2 wS [0, 0] 2 _ _ hcall⟩⟩

/-- The nested `np.matmul` pipeline of `bin_matrix`, read as a `Fin`-indexed
matrix, is exactly `bins * M * bins_no_weightᵀ`. -/
lemma binMat_toMatrix (lmax n : ℕ) (B Bnw M : ℕ → ℕ → ℝ) :
    (Matrix.of fun a b : Fin n => bin_matrix lmax B Bnw M a.1 b.1)
      = (Matrix.of fun (i : Fin n) (j : Fin (lmax + 1)) => B i.1 j.1)
          * (Matrix.of fun (i : Fin (lmax + 1)) (j : Fin (lmax + 1)) =>
              M i.1 j.1)
          * (Matrix.of fun (i : Fin n) (j : Fin (lmax + 1)) =>
              Bnw i.1 j.1).transpose := by
  ext i j
  simp only [Matrix.of_apply, Matrix.mul_apply, Matrix.transpose_apply,
    bin_matrix, npMatMul]
  rw [← Fin.sum_univ_eq_sum_range
    (fun x => (∑ k in Finset.range (lmax + 1), B i.1 k * M k x) * Bnw j.1 x)
    (lmax + 1)]
  apply Finset.sum_congr rfl
  intro x hx
  congr 1
  rw [← Fin.sum_univ_eq_sum_range (fun k => B i.1 k * M k x.1) (lmax + 1)]

/-- `bin_Cls` is the `Fin`-indexed matrix-vector product `bins.mulVec Cl`. -/
lemma bin_Cls_toVec (lmax n : ℕ) (B : ℕ → ℕ → ℝ) (cl : ℕ → ℝ) (i : Fin n) :
    Matrix.mulVec
        (Matrix.of fun (a : Fin n) (b : Fin (lmax + 1)) => B a.1 b.1)
        (fun l => cl l.1) i
      = bin_Cls lmax B cl i.1 := by
  simp only [Matrix.mulVec, Matrix.dotProduct, Matrix.of_apply, bin_Cls]
  rw [Fin.sum_univ_eq_sum_range (fun l => B i.1 l * cl l) (lmax + 1)]

/-- In bounds, the translated decoupling pipeline (`bin_matrix`, the
successful `np.linalg.inv` value, `bin_Cls`, `decouple_Cls` in the order
`__call__` composes them) computes the spec's
`(bins·Cl) · (bins·M·bins_no_weightᵀ)⁻¹`. -/
lemma decouple_matches_spec (lmax L : ℕ) (Mll B Bnw : ℕ → ℕ → ℝ)
    (cl : ℕ → ℝ) (j : ℕ) (hj : j < (lmax + 1) / L) :
    decouple_Cls ((lmax + 1) / L)
        (npInvVal ((lmax + 1) / L) (bin_matrix lmax B Bnw Mll))
        (bin_Cls lmax B cl) j
      = decoupled_spec lmax L Mll B Bnw cl j := by
  simp only [decoupled_spec]
  rw [dif_pos hj]
  rw [← binMat_toMatrix lmax ((lmax + 1) / L) B Bnw Mll]
  simp only [decouple_Cls, Matrix.vecMul, Matrix.dotProduct]
  rw [← Fin.sum_univ_eq_sum_range
    (fun i => bin_Cls lmax B cl i
      * npInvVal ((lmax + 1) / L) (bin_matrix lmax B Bnw Mll) i j)
    ((lmax + 1) / L)]
  apply Finset.sum_congr rfl
  intro i _
  congr 1
  · rw [bin_Cls_toVec lmax ((lmax + 1) / L) B cl i]
  · show npInvVal ((lmax + 1) / L) (bin_matrix lmax B Bnw Mll) i.1 j = _
    unfold npInvVal
    rw [dif_pos i.isLt, dif_pos hj]

/-- C2: when the length contract holds, the binning operators build and the
inversion of `Mbb = bins · M · bins_no_weightᵀ` (weighted operator on the
left, transposed unweighted operator on the right) succeeds — on a singular
`Mbb` both `np.linalg.inv` and the model raise `LinAlgError` instead — the
deconvolution call succeeds, caches that inverse, and its returned spectrum
is exactly the row vector `Cb = bins · Cl` multiplied on the right by
`Mbb⁻¹`, as stated by `decoupled_spec`. -/
theorem C2_decouple_pipeline (self : MaskDeconvolution) (C_l : List ℝ)
    (L : ℕ) (B Bnw : ℕ → ℕ → ℝ) (E : ℕ → ℝ) (Minv : ℕ → ℕ → ℝ)
    (hlen : C_l.length = self.lmax + 1)
    (hinit : init_binning self.lmax L = .ok (B, Bnw, E))
    (hinv : npInv ((self.lmax + 1) / L)
        (bin_matrix self.lmax B Bnw self.Mll) = .ok Minv) :
    ∃ s', self.call C_l L = .ok (s',
        (E, decouple_Cls ((self.lmax + 1) / L) Minv
          (bin_Cls self.lmax B (fun l => C_l.getD l 0)))) ∧
      s'.Mbb_inv = some ((self.lmax + 1) / L, Minv) ∧
      (∀ j, j < (self.lmax + 1) / L →
        decouple_Cls ((self.lmax + 1) / L) Minv
          (bin_Cls self.lmax B (fun l => C_l.getD l 0)) j
          = decoupled_spec self.lmax L self.Mll B Bnw
              (fun l => C_l.getD l 0) j) := by
  have hMinv : Minv = npInvVal ((self.lmax + 1) / L)
      (bin_matrix self.lmax B Bnw self.Mll) := by
    unfold npInv at hinv
    split at hinv
    · exact absurd hinv (by simp)
    · simp only [Except.ok.injEq] at hinv
      exact hinv.symm
  subst hMinv
  refine ⟨_, call_ok self C_l L B Bnw E _ hlen hinit hinv, rfl, ?_⟩
  intro j hj
  exact decouple_matches_spec self.lmax L self.Mll B Bnw
    (fun l => C_l.getD l 0) j hj

/-- The bin-centre vector of the C2 witness instance. -/
noncomputable def ellsW : ℕ → ℝ :=
  fun b => ∑ l in Finset.range (1 + 1), binsF 1 2 b l * (l : ℝ)

/-- Witness for C2 at the nonsingular instance `wS` (`lmax = 1`,
`W = [1,1,1]`, `Mbb = [[9/(4π)]]`), `lperBin = 2`, `C_l = [0, 0]`. -/
theorem C2_decouple_pipeline_witness :
    (([0, 0] : List ℝ).length = wS.lmax + 1 ∧
        init_binning wS.lmax 2 = .ok (binsF 1 2, binsNWF 1 2, ellsW) ∧
        npInv ((wS.lmax + 1) / 2)
            (bin_matrix wS.lmax (binsF 1 2) (binsNWF 1 2) wS.Mll)
          = .ok (npInvVal ((wS.lmax + 1) / 2)
              (bin_matrix wS.lmax (binsF 1 2) (binsNWF 1 2) wS.Mll))) ∧
      (∃ s', wS.call [0, 0] 2 = .ok (s',
          (ellsW, decouple_Cls ((wS.lmax + 1) / 2)
            (npInvVal ((wS.lmax + 1) / 2)
              (bin_matrix wS.lmax (binsF 1 2) (binsNWF 1 2) wS.Mll))
            (bin_Cls wS.lmax (binsF 1 2)
              (fun l => ([0, 0] : List ℝ).getD l 0)))) ∧
        s'.Mbb_inv = some ((wS.lmax + 1) / 2,
          npInvVal ((wS.lmax + 1) / 2)
            (bin_matrix wS.lmax (binsF 1 2) (binsNWF 1 2) wS.Mll)) ∧
        (∀ j, j < (wS.lmax + 1) / 2 →
          decouple_Cls ((wS.lmax + 1) / 2)
            (npInvVal ((wS.lmax + 1) / 2)
              (bin_matrix wS.lmax (binsF 1 2) (binsNWF 1 2) wS.Mll))
            (bin_Cls wS.lmax (binsF 1 2)
              (fun l => ([0, 0] : List ℝ).getD l 0)) j
            = decoupled_spec wS.lmax 2 wS.Mll (binsF 1 2)
                (binsNWF 1 2) (fun l => ([0, 0] : List ℝ).getD l 0) j)) := by
  have hi : init_binning wS.lmax 2
      = .ok (binsF 1 2, binsNWF 1 2, ellsW) :=
    init_binning_dvd 1 2 (by norm_num) (by norm_num)
  exact ⟨⟨rfl, hi, wS_inv_ok⟩,
    C2_decouple_pipeline wS [0, 0] 2 (binsF 1 2) (binsNWF 1 2) ellsW _
      rfl hi wS_inv_ok⟩
